import Mathlib

/-!
Verification development for the OrganoidTracker cell-lineage core.

The analysis algorithms under verification are translated directly from the
repository sources:

  * `src/ai_track/linking_analysis/lineage_division_counter.py`
  * `src/autotrack/linking_analysis/cell_fate_finder.py`
  * `src/autotrack/linking_analysis/links_postprocessor.py`
  * `src/ai_track/imaging/io.py`
  * `src/core/shape.py`
  * `src/ai_track_plugins/plugin_lineage_tree.py`

Their supporting data model (the `Links` graph, `LinkingTrack`, the
`linking_markers` module, `cell_appearance_finder`, `existing_connections`
and `core.gaussian`) is not part of the source tree; those definitions are
modelled from the specification and are marked `Modelled from the spec:` in
their doc comments.
-/

namespace OrganoidTracker

/-- A cell detection: an immutable value `(x, y, z, time_point_number)`.
Coordinates are modelled as integers; none of the verified algorithms
performs arithmetic on them, they only compare positions by value. -/
structure Position where
  x : Int
  y : Int
  z : Int
  t : Int
deriving DecidableEq, Repr

/-- `time_point_number()` of a position. -/
def Position.time_point_number (p : Position) : Int := p.t

/-- Modelled from the spec: per-node metadata values form a tagged union
(absent/int/float/string/color/etc.); the verified algorithms only ever
store strings, integers and booleans. -/
inductive MetaValue where
  | str (s : String)
  | int (n : Int)
  | bool (b : Bool)
deriving DecidableEq, Repr

/-- Modelled from the spec: `EndMarker` enumerated variants
`{DEAD, SHED, OUT_OF_VIEW}` attached as node metadata to explain why a
track has no children. -/
inductive EndMarker where
  | DEAD
  | SHED
  | OUT_OF_VIEW
deriving DecidableEq, Repr

/-- Modelled from the spec: the `Links` graph — a directed graph whose nodes
are Positions, with per-node keyed metadata.  Edges are kept as a list of
`(source, target)` pairs and metadata as a flat list of
`(position, key, value)` entries. -/
structure Links where
  edges : List (Position × Position)
  posData : List (Position × String × MetaValue)
deriving DecidableEq, Repr

/-- The graph with no links and no metadata. -/
def emptyLinks : Links := ⟨[], []⟩

/-- Modelled from the spec: `get_position_data(p, key)` — generic per-node
metadata lookup; absent keys yield `none`. -/
def get_position_data (links : Links) (p : Position) (k : String) : Option MetaValue :=
  (links.posData.find? fun e => e.1 == p && e.2.1 == k).map fun e => e.2.2

/-- Modelled from the spec: `set_position_data(p, key, value)` — overwrites
the binding for `(p, key)`; `value = none` means "delete the key". -/
def set_position_data (links : Links) (p : Position) (k : String) (v : Option MetaValue) :
    Links :=
  { links with
    posData := (links.posData.filter fun e => !(e.1 == p && e.2.1 == k)) ++
      (match v with
       | none => []
       | some w => [(p, k, w)]) }

/-- Modelled from the spec: `add_link(source, target)` inserts a directed
edge (set semantics: inserting an existing edge is a no-op). -/
def add_link (links : Links) (source target : Position) : Links :=
  if (source, target) ∈ links.edges then links
  else { links with edges := links.edges ++ [(source, target)] }

/-- Modelled from the spec: `find_futures(p)` returns the set of positions
connected forward from `p`. -/
def find_futures (links : Links) (p : Position) : List Position :=
  ((links.edges.filter fun e => e.1 == p).map fun e => e.2).dedup

/-- Modelled from the spec: `find_all_links()` enumerates every directed
edge of the graph. -/
def find_all_links (links : Links) : List (Position × Position) :=
  links.edges

/-- Modelled from the spec: per-position metadata iteration
(`find_all_data_of_position`), yielding the `(key, value)` pairs stored on
one position. -/
def find_all_data_of_position (links : Links) (p : Position) :
    List (String × MetaValue) :=
  (links.posData.filter fun e => e.1 == p).map fun e => (e.2.1, e.2.2)

/-- Modelled from the spec: positions that appear in the graph, either as an
edge endpoint or as a carrier of metadata (`find_all_positions`). -/
def find_all_positions (links : Links) : List Position :=
  (links.edges.flatMap fun e => [e.1, e.2]) ++ links.posData.map fun e => e.1

/-- Modelled from the spec: decoding of the end-of-track marker stored in
the metadata under the `"ending"` key (`linking_markers` is absent from
`src/`). -/
def EndMarker.parse (s : String) : Option EndMarker :=
  if s = "dead" then some EndMarker.DEAD
  else if s = "shed" then some EndMarker.SHED
  else if s = "out_of_view" then some EndMarker.OUT_OF_VIEW
  else none

/-- Modelled from the spec: `linking_markers.get_track_end_marker(links, p)`
reads the end-of-track marker attached to `p`, or `none`. -/
def get_track_end_marker (links : Links) (p : Position) : Option EndMarker :=
  match get_position_data links p "ending" with
  | some (MetaValue.str s) => EndMarker.parse s
  | _ => none

/-- Modelled from the spec: `linking_markers.get_error_marker(links, p)`
reads the error marker attached to `p` (`isSome` means the position is
flagged with an error). -/
def get_error_marker (links : Links) (p : Position) : Option MetaValue :=
  get_position_data links p "error"

/-- Modelled from the spec: `LinkingTrack` — a maximal run of positions
(ordered by time, hence nonempty) together with the tracks that follow it
after a division (`get_next_tracks`).  A lineage is the tree of tracks
reached from a starting track, so the next-track structure is represented
inductively. -/
inductive LTrack where
  | mk (firstPos : Position) (morePos : List Position) (nexts : List LTrack)

/-- The ordered positions of a track. -/
def LTrack.positions : LTrack → List Position
  | .mk f m _ => f :: m

/-- `get_next_tracks()` of a track. -/
def LTrack.nexts : LTrack → List LTrack
  | .mk _ _ ns => ns

/-- `min_time_point_number()`: the time point of the first position. -/
def LTrack.minT : LTrack → Int
  | .mk f _ _ => f.t

/-- `find_last_position()`: the last position of the track. -/
def LTrack.lastPos : LTrack → Position
  | .mk f m _ => m.getLastD f

/-- `max_time_point_number()`: the time point of the last position. -/
def LTrack.maxT (tr : LTrack) : Int := tr.lastPos.t

mutual

/-- `find_all_descending_tracks(include_self=True)`: the track itself and
every track reachable from it through divisions, depth first. -/
def LTrack.allDescendants : LTrack → List LTrack
  | .mk f m ns => .mk f m ns :: allDescList ns

/-- All tracks reachable from any track of the given list (each list entry
included), depth first. -/
def allDescList : List LTrack → List LTrack
  | [] => []
  | t :: ts => t.allDescendants ++ allDescList ts

end

/-- The body of the `for track in ... find_all_descending_tracks` loop of
`get_division_count_in_lineage` (`lineage_division_counter.py`, lines
24-36), with the running `division_count` made explicit.  Returning `none`
models the early `return None`. -/
def divCountLoop (links : Links) (last : Int) (require_accurate : Bool) :
    List LTrack → Nat → Option Nat
  | [], division_count => some division_count
  | track :: rest, division_count =>
    if track.minT > last then
      -- Ignore this track, it is past the end of the time point window
      divCountLoop links last require_accurate rest division_count
    else if track.nexts.length = 0 ∧
        get_track_end_marker links track.lastPos ≠ some EndMarker.DEAD ∧
        track.maxT < last then
      if require_accurate then
        none  -- division count in lineage is uncertain
      else
        divCountLoop links last require_accurate rest division_count
    else if track.maxT < last ∧ track.nexts.length > 1 then
      divCountLoop links last require_accurate rest (division_count + 1)
    else
      divCountLoop links last require_accurate rest division_count

/-- `get_division_count_in_lineage(starting_track, links,
last_time_point_number, require_accurate)` from
`src/ai_track/linking_analysis/lineage_division_counter.py`. -/
def get_division_count_in_lineage (starting_track : LTrack) (links : Links)
    (last_time_point_number : Int) (require_accurate : Bool := true) : Option Nat :=
  divCountLoop links last_time_point_number require_accurate
    starting_track.allDescendants 0

/-- If some track of the traversed list satisfies the "unexplained
truncation" condition and is not skipped by the window test, the counting
loop with `require_accurate = true` aborts with `none`. -/
theorem divCountLoop_none_of_bad (links : Links) (last : Int)
    (l : List LTrack) (acc : Nat)
    (h : ∃ t ∈ l, t.nexts.length = 0 ∧
      get_track_end_marker links t.lastPos ≠ some EndMarker.DEAD ∧
      t.maxT < last ∧ t.minT ≤ last) :
    divCountLoop links last true l acc = none := by
  induction l generalizing acc with
  | nil => simp at h
  | cons t rest ih =>
    obtain ⟨t0, ht0, hbad⟩ := h
    rw [divCountLoop]
    rcases List.mem_cons.mp ht0 with heq | hmem
    · subst heq
      rw [if_neg (by omega), if_pos ⟨hbad.1, hbad.2.1, hbad.2.2.1⟩]
      rfl
    · split
      · exact ih acc ⟨t0, hmem, hbad⟩
      · split
        · rfl
        · split
          · exact ih (acc + 1) ⟨t0, hmem, hbad⟩
          · exact ih acc ⟨t0, hmem, hbad⟩

/-- When the counting loop completes with a value, that value is the running
count plus the number of remaining tracks that end inside the window with
more than one next track (each track's minimum time point being at most its
maximum). -/
theorem divCountLoop_some_eq_countP (links : Links) (last : Int)
    (require_accurate : Bool) (l : List LTrack) (acc n : Nat)
    (hwf : ∀ t ∈ l, t.minT ≤ t.maxT)
    (h : divCountLoop links last require_accurate l acc = some n) :
    n = acc + l.countP (fun t => decide (t.maxT < last ∧ t.nexts.length > 1)) := by
  induction l generalizing acc with
  | nil =>
    simp only [divCountLoop, Option.some.injEq] at h
    simp [h]
  | cons t rest ih =>
    have hwft : t.minT ≤ t.maxT := hwf t (List.mem_cons_self t rest)
    have hwfrest : ∀ t' ∈ rest, t'.minT ≤ t'.maxT :=
      fun t' ht' => hwf t' (List.mem_cons_of_mem t ht')
    rw [divCountLoop] at h
    split at h
    · -- skipped: the track lies entirely past the window, so it cannot
      -- satisfy the counted condition either
      rename_i hskip
      have hn := ih acc hwfrest h
      have hpred : ¬(t.maxT < last ∧ t.nexts.length > 1) := by omega
      rw [List.countP_cons_of_neg _ _ (by simpa using hpred)]
      exact hn
    · rename_i hnoskip
      split at h
      · rename_i hcond2
        split at h
        · exact absurd h (by simp)
        · have hn := ih acc hwfrest h
          have hzero : t.nexts.length = 0 := hcond2.1
          have hpred : ¬(t.maxT < last ∧ t.nexts.length > 1) := by omega
          rw [List.countP_cons_of_neg _ _ (by simpa using hpred)]
          exact hn
      · rename_i hncond2
        split at h
        · rename_i hpred
          have hn := ih (acc + 1) hwfrest h
          rw [List.countP_cons_of_pos _ _ (by simpa using hpred)]
          omega
        · rename_i hpred
          have hn := ih acc hwfrest h
          rw [List.countP_cons_of_neg _ _ (by simpa using hpred)]
          exact hn

/-- C1: for every lineage whose descendant tracks (including the starting
track) contain at least one track that has no next tracks, whose last
position's end marker is not `DEAD`, and whose maximum time point number is
strictly less than `last_time_point_number` (while its minimum time point
number does not exceed `last_time_point_number`),
`get_division_count_in_lineage` called with `require_accurate = true`
returns `none`. -/
theorem division_count_none_of_unexplained_truncation (starting_track : LTrack)
    (links : Links) (last_time_point_number : Int)
    (h : ∃ t ∈ starting_track.allDescendants, t.nexts.length = 0 ∧
      get_track_end_marker links t.lastPos ≠ some EndMarker.DEAD ∧
      t.maxT < last_time_point_number ∧ t.minT ≤ last_time_point_number) :
    get_division_count_in_lineage starting_track links last_time_point_number true
      = none :=
  divCountLoop_none_of_bad links last_time_point_number
    starting_track.allDescendants 0 h

/-- Witness for C1: a lineage consisting of a single track at time point 0
with no next tracks and no end marker, counted up to time point 5. -/
theorem division_count_none_of_unexplained_truncation_witness :
    (∃ t ∈ (LTrack.mk ⟨0, 0, 0, 0⟩ [] []).allDescendants, t.nexts.length = 0 ∧
      get_track_end_marker emptyLinks t.lastPos ≠ some EndMarker.DEAD ∧
      t.maxT < 5 ∧ t.minT ≤ 5) ∧
    get_division_count_in_lineage (LTrack.mk ⟨0, 0, 0, 0⟩ [] []) emptyLinks 5 true
      = none :=
  ⟨by decide,
   division_count_none_of_unexplained_truncation (LTrack.mk ⟨0, 0, 0, 0⟩ [] [])
     emptyLinks 5 (by decide)⟩

/-- C2: whenever `get_division_count_in_lineage` does not return `none`, its
result equals the number of descendant tracks (the starting track included,
as traversed by `find_all_descending_tracks(include_self=True)`) whose
maximum time point number is strictly less than `last_time_point_number`
and that have more than one next track; each division contributes exactly
1, and tracks lying past the window contribute nothing (which the
well-formedness hypothesis `min ≤ max` per track makes automatic). -/
theorem division_count_eq_number_of_dividing_tracks (starting_track : LTrack)
    (links : Links) (last_time_point_number : Int) (require_accurate : Bool)
    (n : Nat)
    (hwf : ∀ t ∈ starting_track.allDescendants, t.minT ≤ t.maxT)
    (h : get_division_count_in_lineage starting_track links last_time_point_number
      require_accurate = some n) :
    n = starting_track.allDescendants.countP
      (fun t => decide (t.maxT < last_time_point_number ∧ t.nexts.length > 1)) := by
  have := divCountLoop_some_eq_countP links last_time_point_number require_accurate
    starting_track.allDescendants 0 n hwf h
  simpa using this

/-- Witness for C2: a lineage with one division at time point 0 into two
daughter tracks at time point 1, counted up to time point 1, yields count 1
with `require_accurate = true`. -/
theorem division_count_eq_number_of_dividing_tracks_witness :
    (∀ t ∈ (LTrack.mk ⟨0, 0, 0, 0⟩ []
        [LTrack.mk ⟨1, 0, 0, 1⟩ [] [], LTrack.mk ⟨2, 0, 0, 1⟩ [] []]).allDescendants,
      t.minT ≤ t.maxT) ∧
    get_division_count_in_lineage
      (LTrack.mk ⟨0, 0, 0, 0⟩ []
        [LTrack.mk ⟨1, 0, 0, 1⟩ [] [], LTrack.mk ⟨2, 0, 0, 1⟩ [] []])
      emptyLinks 1 true = some 1 ∧
    1 = (LTrack.mk ⟨0, 0, 0, 0⟩ []
        [LTrack.mk ⟨1, 0, 0, 1⟩ [] [], LTrack.mk ⟨2, 0, 0, 1⟩ [] []]).allDescendants.countP
      (fun t => decide (t.maxT < 1 ∧ t.nexts.length > 1)) :=
  ⟨by decide, by decide,
   division_count_eq_number_of_dividing_tracks
     (LTrack.mk ⟨0, 0, 0, 0⟩ []
       [LTrack.mk ⟨1, 0, 0, 1⟩ [] [], LTrack.mk ⟨2, 0, 0, 1⟩ [] []])
     emptyLinks 1 true 1 (by decide) (by decide)⟩

/-- `CellFateType` from `src/autotrack/linking_analysis/cell_fate_finder.py`:
cells will either divide another time, continue moving for a long time, or
die. -/
inductive CellFateType where
  | UNKNOWN
  | JUST_MOVING
  | WILL_DIVIDE
  | WILL_DIE
deriving DecidableEq, Repr

/-- `CellFate` from `cell_fate_finder.py`: what happened to the cell, and in
how many time points it will die/divide (only set for `WILL_DIVIDE` and
`WILL_DIE`). -/
structure CellFate where
  type : CellFateType
  time_points_remaining : Option Int
deriving DecidableEq, Repr

/-- The `while True` loop of `get_fate` (`cell_fate_finder.py`, lines
34-58), with an explicit fuel bound on the number of loop-body executions;
`none` marks fuel exhaustion, which the termination theorem shows never
happens for enough fuel on forward-in-time graphs. -/
def fateLoop (links : Links) (startT maxT : Int) : Nat → Position → Option CellFate
  | 0, _ => none
  | fuel + 1, particle =>
    let next_particles := find_futures links particle
    if next_particles.length = 0 ∧
        get_track_end_marker links particle = some EndMarker.DEAD then
      -- Actual cell death
      some ⟨CellFateType.WILL_DIE, some (particle.t - startT)⟩
    else if next_particles.length = 0 ∨
        (get_error_marker links particle).isSome = true then
      -- Cell moved out of view / has an error / the experiment ended
      if particle.t > maxT then some ⟨CellFateType.JUST_MOVING, none⟩
      else some ⟨CellFateType.UNKNOWN, none⟩
    else
      match next_particles with
      | [q] => fateLoop links startT maxT fuel q  -- simple movement
      | _ => some ⟨CellFateType.WILL_DIVIDE, some (particle.t - startT)⟩

/-- The largest target time point of any link, or `init` if there are none;
an upper bound on the time reachable by following links forward. -/
def maxTargetTime (links : Links) (init : Int) : Int :=
  (links.edges.map fun e => e.2.t).foldl max init

/-- Fuel sufficient for `fateLoop`: one execution per time point from the
starting position to the last linked time point, plus one. -/
def fateFuel (links : Links) (p : Position) : Nat :=
  (maxTargetTime links p.t - p.t).toNat + 1

/-- `get_fate(experiment, particle)` from
`src/autotrack/linking_analysis/cell_fate_finder.py`;
`division_lookahead_time_points` is the experiment-level setting, and
`startT + division_lookahead_time_points` is the `max_time_point_number`
of the source. -/
def get_fate (links : Links) (division_lookahead_time_points : Int)
    (particle : Position) : Option CellFate :=
  fateLoop links particle.t (particle.t + division_lookahead_time_points)
    (fateFuel links particle) particle

/-- Membership in the forward neighbours of `p` is exactly membership of
the corresponding directed edge in the graph. -/
theorem mem_find_futures {links : Links} {p q : Position} :
    q ∈ find_futures links p ↔ (p, q) ∈ links.edges := by
  simp only [find_futures, List.mem_dedup, List.mem_map, List.mem_filter,
    Bool.and_eq_true, beq_iff_eq]
  constructor
  · rintro ⟨⟨a, b⟩, ⟨hm, ha⟩, rfl⟩
    simp only at ha
    subst ha
    exact hm
  · intro hm
    exact ⟨(p, q), ⟨hm, rfl⟩, rfl⟩

/-- A fold with `max` bounds the initial value and every list element from
below. -/
theorem le_foldl_max (l : List Int) (init : Int) :
    init ≤ l.foldl max init ∧ ∀ x ∈ l, x ≤ l.foldl max init := by
  induction l generalizing init with
  | nil => simp
  | cons a l ih =>
    simp only [List.foldl_cons]
    obtain ⟨h1, h2⟩ := ih (max init a)
    refine ⟨le_trans (le_max_left _ _) h1, ?_⟩
    intro x hx
    rcases List.mem_cons.mp hx with rfl | hx
    · exact le_trans (le_max_right _ _) h1
    · exact h2 x hx

/-- On a graph whose links all go strictly forward in time with every link
target at time at most `M`, the fate loop returns an answer whenever its
fuel exceeds the number of time points between the current position and
`M`. -/
theorem fateLoop_isSome_of_fuel (links : Links) (startT maxT M : Int)
    (hfwd : ∀ e ∈ links.edges, e.1.t < e.2.t)
    (hM : ∀ e ∈ links.edges, e.2.t ≤ M) :
    ∀ fuel p, (M - p.t).toNat < fuel →
      (fateLoop links startT maxT fuel p).isSome = true := by
  intro fuel
  induction fuel with
  | zero => intro p hp; omega
  | succ fuel ih =>
    intro p hp
    rw [fateLoop]
    split
    · rfl
    · split
      · split <;> rfl
      · split
        · rename_i q heq
          have hq : (p, q) ∈ links.edges :=
            mem_find_futures.mp (heq ▸ List.mem_singleton_self q)
          have h1 : p.t < q.t := hfwd (p, q) hq
          have h2 : q.t ≤ M := hM (p, q) hq
          exact ih q (by omega)
        · rfl

/-- C3: for every track with no division and no `DEAD` end marker, calling
`get_fate` on the track's last position (which consequently has no future
positions) returns `UNKNOWN` when that position lies before the configured
lookahead boundary (its own time plus `division_lookahead_time_points`),
and returns `JUST_MOVING` when it lies past that boundary. -/
theorem fate_of_undivided_track_end (links : Links)
    (division_lookahead_time_points : Int) (tr : LTrack)
    (_hnodiv : tr.nexts.length = 0)
    (hnodead : get_track_end_marker links tr.lastPos ≠ some EndMarker.DEAD)
    (hend : find_futures links tr.lastPos = []) :
    (tr.lastPos.t < tr.lastPos.t + division_lookahead_time_points →
      get_fate links division_lookahead_time_points tr.lastPos =
        some ⟨CellFateType.UNKNOWN, none⟩) ∧
    (tr.lastPos.t > tr.lastPos.t + division_lookahead_time_points →
      get_fate links division_lookahead_time_points tr.lastPos =
        some ⟨CellFateType.JUST_MOVING, none⟩) := by
  have hbody : ∀ fuel : Nat,
      fateLoop links tr.lastPos.t (tr.lastPos.t + division_lookahead_time_points)
        (fuel + 1) tr.lastPos =
      if tr.lastPos.t > tr.lastPos.t + division_lookahead_time_points then
        some ⟨CellFateType.JUST_MOVING, none⟩
      else some ⟨CellFateType.UNKNOWN, none⟩ := by
    intro fuel
    rw [fateLoop]
    rw [if_neg (fun hc => hnodead hc.2), if_pos (Or.inl (by rw [hend]; rfl))]
  constructor
  · intro hla
    rw [get_fate, fateFuel, hbody, if_neg (by omega)]
  · intro hla
    rw [get_fate, fateFuel, hbody, if_pos (by omega)]

/-- Witness for C3: a single-position track at time 0 in an empty graph;
with a lookahead of 5 time points its last position lies before the
boundary and its fate is `UNKNOWN`. -/
theorem fate_of_undivided_track_end_witness :
    ((LTrack.mk ⟨0, 0, 0, 0⟩ [] []).nexts.length = 0 ∧
      get_track_end_marker emptyLinks (LTrack.mk ⟨0, 0, 0, 0⟩ [] []).lastPos ≠
        some EndMarker.DEAD ∧
      find_futures emptyLinks (LTrack.mk ⟨0, 0, 0, 0⟩ [] []).lastPos = []) ∧
    get_fate emptyLinks 5 (LTrack.mk ⟨0, 0, 0, 0⟩ [] []).lastPos =
      some ⟨CellFateType.UNKNOWN, none⟩ :=
  ⟨by decide,
   (fate_of_undivided_track_end emptyLinks 5 (LTrack.mk ⟨0, 0, 0, 0⟩ [] [])
     (by decide) (by decide) (by decide)).1 (by decide)⟩

/-- C10: on every finite links graph in which every link goes strictly
forward in time, `get_fate` terminates on every starting position: the
while-loop reaches a return within one loop-body execution per time point
from the starting position up to the last linked time point `M` (fuel
`(M - p.t).toNat + 1` suffices), and in particular the fuelled embedding
`get_fate` produces an answer. -/
theorem get_fate_terminates (links : Links)
    (division_lookahead_time_points : Int) (p : Position) (M : Int)
    (hfwd : ∀ e ∈ links.edges, e.1.t < e.2.t)
    (hM : ∀ e ∈ links.edges, e.2.t ≤ M) :
    (fateLoop links p.t (p.t + division_lookahead_time_points)
      ((M - p.t).toNat + 1) p).isSome = true ∧
    (get_fate links division_lookahead_time_points p).isSome = true := by
  constructor
  · exact fateLoop_isSome_of_fuel links p.t
      (p.t + division_lookahead_time_points) M hfwd hM ((M - p.t).toNat + 1) p
      (by omega)
  · rw [get_fate]
    apply fateLoop_isSome_of_fuel links p.t
      (p.t + division_lookahead_time_points) (maxTargetTime links p.t) hfwd
    · intro e he
      exact (le_foldl_max (links.edges.map fun e => e.2.t) p.t).2 e.2.t
        (List.mem_map.mpr ⟨e, he, rfl⟩)
    · rw [fateFuel]
      omega

/-- Witness for C10: a two-position chain 0 → 1 in time, with `M = 1`. -/
theorem get_fate_terminates_witness :
    ((∀ e ∈ (Links.mk [(⟨0, 0, 0, 0⟩, ⟨0, 0, 0, 1⟩)] []).edges, e.1.t < e.2.t) ∧
      (∀ e ∈ (Links.mk [(⟨0, 0, 0, 0⟩, ⟨0, 0, 0, 1⟩)] []).edges, e.2.t ≤ 1)) ∧
    ((fateLoop (Links.mk [(⟨0, 0, 0, 0⟩, ⟨0, 0, 0, 1⟩)] []) 0 3
      (((1 : Int) - 0).toNat + 1) ⟨0, 0, 0, 0⟩).isSome = true ∧
     (get_fate (Links.mk [(⟨0, 0, 0, 0⟩, ⟨0, 0, 0, 1⟩)] []) 3
      ⟨0, 0, 0, 0⟩).isSome = true) :=
  ⟨⟨by decide, by decide⟩,
   get_fate_terminates (Links.mk [(⟨0, 0, 0, 0⟩, ⟨0, 0, 0, 1⟩)] []) 3
     ⟨0, 0, 0, 0⟩ 1 (by decide) (by decide)⟩

/-- Modelled from the spec: the particle graph the autotrack postprocessor
operates on (`experiment.links.get_baseline_else_scratch()`): a node list
plus directed forward-in-time edges. -/
structure SpurGraph where
  nodes : List Position
  edges : List (Position × Position)
deriving DecidableEq, Repr

/-- Modelled from the spec:
`existing_connections.find_future_particles(graph, particle)` — the set of
positions connected forward from `particle`. -/
def find_future_particles (g : SpurGraph) (p : Position) : List Position :=
  ((g.edges.filter fun e => e.1 == p).map fun e => e.2).dedup

/-- Modelled from the spec: the set of positions connected backward from
`particle`. -/
def find_past_particles (g : SpurGraph) (p : Position) : List Position :=
  ((g.edges.filter fun e => e.2 == p).map fun e => e.1).dedup

/-- Modelled from the spec: `experiment.remove_particle(p)` removes the
node and all incident edges. -/
def remove_particle (g : SpurGraph) (p : Position) : SpurGraph :=
  ⟨g.nodes.filter fun q => !(q == p),
   g.edges.filter fun e => !(e.1 == p) && !(e.2 == p)⟩

/-- The `for particle_in_track in particles_in_track` removal loop of
`_check_for_and_remove_spur`. -/
def removeAllParticles (g : SpurGraph) (ps : List Position) : SpurGraph :=
  ps.foldl remove_particle g

/-- Modelled from the spec:
`cell_appearance_finder.find_appeared_cells(graph)` — cells with no
predecessor that do not start at the experiment's first time point. -/
def find_appeared_cells (g : SpurGraph) (first_time_point : Int) : List Position :=
  g.nodes.filter fun p =>
    (find_past_particles g p).isEmpty && decide (p.t > first_time_point)

/-- The walk of `_check_for_and_remove_spur` (`links_postprocessor.py`,
lines 33-54): `track_length` and `particles_in_track` are the loop state;
on a division each branch is checked independently on the graph as mutated
so far; fuel (a modelling bound) decreases on every advance and on every
recursion into a branch. -/
def spurWalk : Nat → SpurGraph → Position → Nat → List Position → SpurGraph
  | 0, g, _, _, _ => g
  | fuel + 1, g, particle, track_length, particles_in_track =>
    let next_particles := find_future_particles g particle
    if next_particles.length = 0 then
      -- End of track: remove the segment when it is too short
      if track_length < 3 then removeAllParticles g particles_in_track else g
    else if next_particles.length > 1 then
      -- Cell division: prune each branch separately
      next_particles.foldl (fun g' q => spurWalk fuel g' q 0 [q]) g
    else
      match next_particles with
      | [q] => spurWalk fuel g q (track_length + 1) (particles_in_track ++ [q])
      | _ => g

/-- `_check_for_and_remove_spur(experiment, graph, particle)` from
`src/autotrack/linking_analysis/links_postprocessor.py`. -/
def _check_for_and_remove_spur (fuel : Nat) (g : SpurGraph) (particle : Position) :
    SpurGraph :=
  spurWalk fuel g particle 0 [particle]

/-- `_remove_spurs(experiment)` from `links_postprocessor.py`: walk from
every appeared cell (snapshot taken before any removal), threading the
mutated graph. -/
def _remove_spurs (first_time_point : Int) (fuel : Nat) (g : SpurGraph) : SpurGraph :=
  (find_appeared_cells g first_time_point).foldl
    (fun g' particle => _check_for_and_remove_spur fuel g' particle) g

/-- A simple chain in the graph: each position's futures are exactly the
singleton next position, and the last position has none. -/
def isChainB (g : SpurGraph) : List Position → Bool
  | [] => false
  | [p] => find_future_particles g p == []
  | p :: q :: rest => (find_future_particles g p == [q]) && isChainB g (q :: rest)

/-- Walking a simple chain removes exactly the visited positions when the
accumulated length stays below 3, and leaves the graph unchanged
otherwise. -/
theorem spurWalk_chain (g : SpurGraph) :
    ∀ (rest : List Position) (p : Position) (len : Nat) (visited : List Position)
      (fuel : Nat), isChainB g (p :: rest) = true → rest.length < fuel →
      spurWalk fuel g p len visited =
        if len + rest.length < 3 then removeAllParticles g (visited ++ rest)
        else g := by
  intro rest
  induction rest with
  | nil =>
    intro p len visited fuel hchain hfuel
    match fuel, hfuel with
    | fuel + 1, _ =>
      have hnil : find_future_particles g p = [] := by
        simpa [isChainB] using hchain
      rw [spurWalk]
      simp only [hnil, List.length_nil, List.append_nil, Nat.add_zero,
        eq_self_iff_true, if_true]
  | cons q rest ih =>
    intro p len visited fuel hchain hfuel
    match fuel, hfuel with
    | fuel + 1, hfuel =>
      have hsing : find_future_particles g p = [q] := by
        have := hchain
        simp only [isChainB, Bool.and_eq_true, beq_iff_eq] at this
        exact this.1
      have hrest : isChainB g (q :: rest) = true := by
        simp only [isChainB, Bool.and_eq_true, beq_iff_eq] at hchain
        exact hchain.2
      rw [spurWalk]
      simp only [hsing, List.length_singleton]
      rw [if_neg (by omega), if_neg (by omega)]
      have hr := ih q (len + 1) (visited ++ [q]) fuel hrest (by
        simpa using Nat.lt_of_succ_lt_succ hfuel)
      rw [hr]
      have harith : len + 1 + rest.length = len + (q :: rest).length := by
        simp [List.length_cons]; omega
      have happ : (visited ++ [q]) ++ rest = visited ++ (q :: rest) := by
        simp
      rw [harith, happ]

/-- C4: for every appeared cell, the spur-removal walk that reaches a
position with zero next positions deletes every position visited in that
track segment (node and incident edges) exactly when the accumulated length
of the segment is less than 3, and keeps the segment otherwise; in
particular, for a chain of length 2 appearing at t=7 and ending at t=8 with
no marker, `_remove_spurs` deletes both positions. -/
theorem spur_removal_deletes_short_terminal_segments :
    (∀ (g : SpurGraph) (p : Position) (rest : List Position) (fuel : Nat),
      isChainB g (p :: rest) = true → rest.length < fuel →
      _check_for_and_remove_spur fuel g p =
        if rest.length < 3 then removeAllParticles g (p :: rest) else g) ∧
    _remove_spurs 0 10 (SpurGraph.mk [⟨0, 0, 0, 7⟩, ⟨0, 0, 0, 8⟩]
        [(⟨0, 0, 0, 7⟩, ⟨0, 0, 0, 8⟩)]) = SpurGraph.mk [] [] := by
  constructor
  · intro g p rest fuel hchain hfuel
    rw [_check_for_and_remove_spur, spurWalk_chain g rest p 0 [p] fuel hchain hfuel]
    simp
  · decide

/-- C5 counterexample: `_remove_spurs` is not idempotent.  On the graph
with an appeared cell at t=5 dividing at t=6 into a one-position branch and
a three-position branch, the first pass prunes both branches (accumulated
lengths 0 and 2), leaving the mother alone; only the second pass removes
the mother, so running the pass twice deletes more than running it once. -/
theorem remove_spurs_not_idempotent :
    _remove_spurs 0 10
        (_remove_spurs 0 10
          (SpurGraph.mk
            [⟨0, 0, 0, 5⟩, ⟨1, 0, 0, 6⟩, ⟨2, 0, 0, 6⟩, ⟨2, 0, 0, 7⟩, ⟨2, 0, 0, 8⟩]
            [(⟨0, 0, 0, 5⟩, ⟨1, 0, 0, 6⟩), (⟨0, 0, 0, 5⟩, ⟨2, 0, 0, 6⟩),
             (⟨2, 0, 0, 6⟩, ⟨2, 0, 0, 7⟩), (⟨2, 0, 0, 7⟩, ⟨2, 0, 0, 8⟩)])) ≠
      _remove_spurs 0 10
        (SpurGraph.mk
          [⟨0, 0, 0, 5⟩, ⟨1, 0, 0, 6⟩, ⟨2, 0, 0, 6⟩, ⟨2, 0, 0, 7⟩, ⟨2, 0, 0, 8⟩]
          [(⟨0, 0, 0, 5⟩, ⟨1, 0, 0, 6⟩), (⟨0, 0, 0, 5⟩, ⟨2, 0, 0, 6⟩),
           (⟨2, 0, 0, 6⟩, ⟨2, 0, 0, 7⟩), (⟨2, 0, 0, 7⟩, ⟨2, 0, 0, 8⟩)]) := by
  decide

/-- C5 amended: a spur-removal walk never deletes the positions of a track
segment whose accumulated length reaches the threshold 3, and the pass is
idempotent on every graph on which it removed nothing; full idempotence
fails, because pruning every branch below a division can leave the mother
segment as a new short terminal segment that only a second pass removes. -/
theorem remove_spurs_amended :
    (∀ (g : SpurGraph) (p : Position) (rest : List Position) (fuel : Nat),
      isChainB g (p :: rest) = true → rest.length < fuel → 3 ≤ rest.length →
      _check_for_and_remove_spur fuel g p = g) ∧
    (∀ (first_time_point : Int) (fuel : Nat) (g : SpurGraph),
      _remove_spurs first_time_point fuel g = g →
      _remove_spurs first_time_point fuel (_remove_spurs first_time_point fuel g) =
        _remove_spurs first_time_point fuel g) := by
  constructor
  · intro g p rest fuel hchain hfuel hlong
    rw [_check_for_and_remove_spur, spurWalk_chain g rest p 0 [p] fuel hchain hfuel]
    rw [if_neg (by omega)]
  · intro first_time_point fuel g h
    rw [h, h]

/-- The D3.js node-link structure produced by `_links_to_d3_data`
(`io.py`): each node is a position plus its extra metadata fields, each
link a `source`/`target` pair.  The constant `directed`/`multigraph`/
`graph` fields of the Python dictionary carry no graph content and are
omitted. -/
structure D3Data where
  nodes : List (Position × List (String × MetaValue))
  links : List (Position × Position)
deriving DecidableEq, Repr

/-- `_links_to_d3_data(links, positions)` from `src/ai_track/imaging/io.py`:
serialize every given position with its metadata, and every edge. -/
def _links_to_d3_data (links : Links) (positions : List Position) : D3Data :=
  { nodes := positions.map fun p => (p, find_all_data_of_position links p)
    links := find_all_links links }

/-- One step of the node-ingestion loop of `_add_d3_data`: a node whose
dictionary holds only the `"id"` key is skipped, otherwise every other
`(key, value)` field is stored with `set_position_data`. -/
def addNodeData (acc : Links) (node : Position × List (String × MetaValue)) : Links :=
  if node.2.length = 0 then acc
  else node.2.foldl (fun acc2 kv => set_position_data acc2 node.1 kv.1 (some kv.2)) acc

/-- One step of the link-ingestion loop of `_add_d3_data`: edges touching a
time point out of range are ignored, the rest are added with `add_link`. -/
def addOneLink (min_time_point max_time_point : Int) (acc : Links)
    (e : Position × Position) : Links :=
  if e.1.t < min_time_point ∨ e.2.t < min_time_point ∨
      e.1.t > max_time_point ∨ e.2.t > max_time_point then acc
  else add_link acc e.1 e.2

/-- `_add_d3_data(links, data, min_time_point, max_time_point)` from
`src/ai_track/imaging/io.py`: ingest position data, then links. -/
def _add_d3_data (links : Links) (data : D3Data)
    (min_time_point : Int := -100000) (max_time_point : Int := 100000) : Links :=
  data.links.foldl (addOneLink min_time_point max_time_point)
    (data.nodes.foldl addNodeData links)

/-- Storing position data never changes the edge list. -/
theorem set_position_data_edges (links : Links) (p : Position) (k : String)
    (v : Option MetaValue) : (set_position_data links p k v).edges = links.edges :=
  rfl

/-- Adding a link never changes the stored position data. -/
theorem add_link_posData (links : Links) (s t : Position) :
    (add_link links s t).posData = links.posData := by
  rw [add_link]
  split <;> rfl

/-- The per-node metadata fold leaves the edge list untouched. -/
theorem kvFold_edges (p : Position) (kvs : List (String × MetaValue)) (acc : Links) :
    (kvs.foldl (fun acc2 kv => set_position_data acc2 p kv.1 (some kv.2)) acc).edges
      = acc.edges := by
  induction kvs generalizing acc with
  | nil => rfl
  | cons kv kvs ih =>
    rw [List.foldl_cons, ih]
    rfl

/-- The node-ingestion fold leaves the edge list untouched. -/
theorem nodeFold_edges (nodes : List (Position × List (String × MetaValue)))
    (acc : Links) : (nodes.foldl addNodeData acc).edges = acc.edges := by
  induction nodes generalizing acc with
  | nil => rfl
  | cons node nodes ih =>
    rw [List.foldl_cons, ih, addNodeData]
    split
    · rfl
    · exact kvFold_edges node.1 node.2 acc

/-- The link-ingestion fold leaves the stored position data untouched. -/
theorem linkFold_posData (mn mx : Int) (es : List (Position × Position))
    (acc : Links) : (es.foldl (addOneLink mn mx) acc).posData = acc.posData := by
  induction es generalizing acc with
  | nil => rfl
  | cons e es ih =>
    rw [List.foldl_cons, ih, addOneLink]
    split
    · rfl
    · exact add_link_posData acc e.1 e.2

/-- Ingesting a duplicate-free list of in-range edges appends exactly that
list to the accumulated edge list. -/
theorem linkFold_edges (mn mx : Int) (es : List (Position × Position)) (acc : Links)
    (hnodup : es.Nodup)
    (hfresh : ∀ e ∈ es, e ∉ acc.edges)
    (hrange : ∀ e ∈ es, ¬(e.1.t < mn ∨ e.2.t < mn ∨ e.1.t > mx ∨ e.2.t > mx)) :
    (es.foldl (addOneLink mn mx) acc).edges = acc.edges ++ es := by
  induction es generalizing acc with
  | nil => simp
  | cons e es ih =>
    rw [List.foldl_cons, addOneLink,
      if_neg (hrange e (List.mem_cons_self e es))]
    rw [add_link, if_neg (by simpa using hfresh e (List.mem_cons_self e es))]
    have hfresh' : ∀ e' ∈ es, e' ∉ acc.edges ++ [(e.1, e.2)] := by
      intro e' he' hmem
      simp only [List.mem_append, List.mem_singleton, Prod.mk.eta] at hmem
      rcases hmem with h | h
      · exact hfresh e' (List.mem_cons_of_mem e he') h
      · subst h
        exact (List.nodup_cons.mp hnodup).1 he'
    rw [ih _ (List.nodup_cons.mp hnodup).2 hfresh'
      (fun e' he' => hrange e' (List.mem_cons_of_mem e he'))]
    simp

/-- Storing a duplicate-free list of key/value pairs on a position whose
accumulated data avoids those keys appends exactly the corresponding
entries. -/
theorem kvFold_posData (p : Position) :
    ∀ (kvs : List (String × MetaValue)) (acc : Links),
      (kvs.map fun kv => kv.1).Nodup →
      (∀ entry ∈ acc.posData, entry.1 = p → (entry.2.1 ∉ kvs.map fun kv => kv.1)) →
      (kvs.foldl (fun acc2 kv => set_position_data acc2 p kv.1 (some kv.2)) acc).posData
        = acc.posData ++ (kvs.map fun kv => (p, kv.1, kv.2)) := by
  intro kvs
  induction kvs with
  | nil =>
    intro acc _ _
    simp
  | cons kv kvs ih =>
    intro acc hnodup hkeys
    rw [List.foldl_cons]
    have hfilter :
        (acc.posData.filter fun e => !(e.1 == p && e.2.1 == kv.1)) = acc.posData := by
      apply List.filter_eq_self.mpr
      intro e he
      have hne : ¬(e.1 = p ∧ e.2.1 = kv.1) := by
        rintro ⟨h1, h2⟩
        exact hkeys e he h1 (by rw [h2]; exact List.mem_cons_self kv.1 _)
      have hor : ¬(e.1 = p) ∨ ¬(e.2.1 = kv.1) := not_and_or.mp hne
      simpa using hor
    have hstep : (set_position_data acc p kv.1 (some kv.2)).posData
        = acc.posData ++ [(p, kv.1, kv.2)] := by
      simp only [set_position_data]
      rw [hfilter]
    rw [ih (set_position_data acc p kv.1 (some kv.2))
      (by simpa using (List.nodup_cons.mp (by simpa using hnodup)).2)
      (by
        intro entry he h1
        rw [hstep] at he
        rcases List.mem_append.mp he with h | h
        · have := hkeys entry h h1
          intro hc
          exact this (List.mem_cons_of_mem _ hc)
        · have : entry = (p, kv.1, kv.2) := by simpa using h
          rw [this]
          exact (List.nodup_cons.mp (by simpa using hnodup)).1)]
    rw [hstep]
    simp

/-- Ingesting the serialized nodes of a duplicate-free list of positions,
not previously carrying data, appends exactly the serialized entries. -/
theorem nodeFold_posData (links : Links) :
    ∀ (ps : List Position) (acc : Links), ps.Nodup →
      (∀ entry ∈ acc.posData, entry.1 ∉ ps) →
      (∀ p ∈ ps, ((find_all_data_of_position links p).map fun kv => kv.1).Nodup) →
      ((ps.map fun p => (p, find_all_data_of_position links p)).foldl
          addNodeData acc).posData
        = acc.posData ++ ps.flatMap fun p =>
            (find_all_data_of_position links p).map fun kv => (p, kv.1, kv.2) := by
  intro ps
  induction ps with
  | nil =>
    intro acc _ _ _
    simp
  | cons p ps ih =>
    intro acc hnodup hfresh hkeys
    rw [List.map_cons, List.foldl_cons]
    have hstep : (addNodeData acc (p, find_all_data_of_position links p)).posData
        = acc.posData ++
          ((find_all_data_of_position links p).map fun kv => (p, kv.1, kv.2)) := by
      rw [addNodeData]
      split
      · rename_i hlen
        have hempty : find_all_data_of_position links p = [] := by
          simpa using List.length_eq_zero.mp (by simpa using hlen)
        simp [hempty]
      · exact kvFold_posData p (find_all_data_of_position links p) acc
          (hkeys p (List.mem_cons_self p ps))
          (fun entry he h1 =>
            absurd (show entry.1 ∈ p :: ps by rw [h1]; exact List.mem_cons_self p ps)
              (hfresh entry he))
    rw [ih (addNodeData acc (p, find_all_data_of_position links p))
      (List.nodup_cons.mp hnodup).2
      (by
        intro entry he
        rw [hstep] at he
        rcases List.mem_append.mp he with h | h
        · intro hc
          exact hfresh entry h (List.mem_cons_of_mem _ hc)
        · obtain ⟨kv, _, rfl⟩ := List.mem_map.mp h
          exact (List.nodup_cons.mp hnodup).1)
      (fun q hq => hkeys q (List.mem_cons_of_mem _ hq))]
    rw [hstep]
    simp

/-- A key/value pair is reported for a position exactly when the flat
metadata store holds the corresponding entry. -/
theorem mem_find_all_data {links : Links} {p : Position} {k : String} {w : MetaValue} :
    (k, w) ∈ find_all_data_of_position links p ↔ (p, k, w) ∈ links.posData := by
  simp only [find_all_data_of_position, List.mem_map, List.mem_filter, beq_iff_eq]
  constructor
  · rintro ⟨e, ⟨hm, he⟩, hkw⟩
    simp only [Prod.mk.injEq] at hkw
    obtain ⟨rfl, rfl⟩ := hkw
    have : e = (e.1, e.2.1, e.2.2) := rfl
    rw [← he]
    rw [← this]
    exact hm
  · intro hm
    exact ⟨(p, k, w), ⟨hm, rfl⟩, rfl⟩

/-- `find?` returns a given satisfying element when the predicate selects at
most one element of the list. -/
theorem find?_eq_some_of_unique {α : Type} (pred : α → Bool) :
    ∀ (l : List α) (x : α), x ∈ l → pred x = true →
      (∀ a ∈ l, ∀ b ∈ l, pred a = true → pred b = true → a = b) →
      l.find? pred = some x := by
  intro l
  induction l with
  | nil =>
    intro x hx
    simp at hx
  | cons a l ih =>
    intro x hx hpx huniq
    by_cases hpa : pred a = true
    · rw [List.find?_cons_of_pos _ hpa]
      exact congrArg some (huniq a (List.mem_cons_self a l) x hx hpa hpx)
    · rw [List.find?_cons_of_neg _ (by simpa using hpa)]
      have hxl : x ∈ l := by
        rcases List.mem_cons.mp hx with rfl | h
        · exact absurd hpx hpa
        · exact h
      exact ih x hxl hpx
        (fun a' ha' b hb => huniq a' (List.mem_cons_of_mem _ ha') b
          (List.mem_cons_of_mem _ hb))

/-- Two lists with the same members, on which the predicate selects at most
one element, give the same `find?` result. -/
theorem find?_congr_of_unique {α : Type} (l1 l2 : List α) (pred : α → Bool)
    (hmem : ∀ x, x ∈ l1 ↔ x ∈ l2)
    (huniq : ∀ a ∈ l2, ∀ b ∈ l2, pred a = true → pred b = true → a = b) :
    l1.find? pred = l2.find? pred := by
  cases hfind : l1.find? pred with
  | none =>
    rw [eq_comm, List.find?_eq_none]
    rw [List.find?_eq_none] at hfind
    intro x hx
    exact hfind x ((hmem x).mpr hx)
  | some a =>
    have ha := List.find?_some hfind
    have hamem := List.mem_of_find?_eq_some hfind
    exact (find?_eq_some_of_unique pred l2 a ((hmem a).mp hamem) ha huniq).symm

/-- C6: serializing a links graph's nodes and edges with
`_links_to_d3_data` (over a duplicate-free list of positions covering every
position that carries data) and re-ingesting the structure with
`_add_d3_data` (which calls `add_link` and `set_position_data`)
reconstructs an isomorphic graph: the same directed edges, the same
per-position metadata values, and the same position set.  The
well-formedness hypotheses state that the source graph has set semantics
(no duplicate edge, one value per position/key pair) and that its time
points fall inside the default deserialization window. -/
theorem d3_data_roundtrip (links : Links) (ps : List Position)
    (hps : ∀ entry ∈ links.posData, entry.1 ∈ ps)
    (hpsnodup : ps.Nodup)
    (hkeys : (links.posData.map fun entry => (entry.1, entry.2.1)).Nodup)
    (hedges : links.edges.Nodup)
    (hrange : ∀ e ∈ links.edges, -100000 ≤ e.1.t ∧ e.1.t ≤ 100000 ∧
      -100000 ≤ e.2.t ∧ e.2.t ≤ 100000) :
    (_add_d3_data emptyLinks (_links_to_d3_data links ps)).edges = links.edges ∧
    (∀ p k, get_position_data (_add_d3_data emptyLinks (_links_to_d3_data links ps)) p k
      = get_position_data links p k) ∧
    (∀ p, p ∈ find_all_positions (_add_d3_data emptyLinks (_links_to_d3_data links ps))
      ↔ p ∈ find_all_positions links) := by
  have hkeysper : ∀ p ∈ ps,
      ((find_all_data_of_position links p).map fun kv => kv.1).Nodup := by
    intro p _
    rw [find_all_data_of_position, List.map_map]
    apply List.Nodup.map_on
    · intro x hx y hy hxy
      have hxm := List.mem_filter.mp hx
      have hym := List.mem_filter.mp hy
      have hx1 : x.1 = p := by simpa using hxm.2
      have hy1 : y.1 = p := by simpa using hym.2
      simp only [Function.comp] at hxy
      apply List.inj_on_of_nodup_map hkeys hxm.1 hym.1
      simp only [Prod.mk.injEq]
      exact ⟨hx1.trans hy1.symm, by simpa using hxy⟩
    · exact (List.Nodup.of_map _ hkeys).filter _
  have hdata : (_add_d3_data emptyLinks (_links_to_d3_data links ps)).posData
      = ps.flatMap fun p =>
          (find_all_data_of_position links p).map fun kv => (p, kv.1, kv.2) := by
    rw [_add_d3_data, linkFold_posData]
    simp only [_links_to_d3_data]
    rw [nodeFold_posData links ps emptyLinks hpsnodup
      (by intro entry he; simp [emptyLinks] at he) hkeysper]
    simp [emptyLinks]
  have hmemdata : ∀ entry,
      entry ∈ (_add_d3_data emptyLinks (_links_to_d3_data links ps)).posData ↔
      entry ∈ links.posData := by
    intro entry
    rw [hdata]
    simp only [List.mem_flatMap, List.mem_map]
    constructor
    · rintro ⟨p, _, kv, hkv, rfl⟩
      exact mem_find_all_data.mp hkv
    · intro hm
      exact ⟨entry.1, hps entry hm, (entry.2.1, entry.2.2),
        mem_find_all_data.mpr hm, rfl⟩
  have huniql : ∀ (p : Position) (k : String), ∀ a ∈ links.posData,
      ∀ b ∈ links.posData, (a.1 == p && a.2.1 == k) = true →
      (b.1 == p && b.2.1 == k) = true → a = b := by
    intro p k a ha b hb hpa hpb
    simp only [Bool.and_eq_true, beq_iff_eq] at hpa hpb
    apply List.inj_on_of_nodup_map hkeys ha hb
    simp only [Prod.mk.injEq]
    exact ⟨hpa.1.trans hpb.1.symm, hpa.2.trans hpb.2.symm⟩
  have hedgeseq :
      (_add_d3_data emptyLinks (_links_to_d3_data links ps)).edges = links.edges := by
    rw [_add_d3_data]
    rw [linkFold_edges (-100000) 100000 _ _
      (by simpa [_links_to_d3_data, find_all_links] using hedges)
      (by
        intro e _ hmem
        rw [nodeFold_edges] at hmem
        simp [emptyLinks] at hmem)
      (by
        intro e he
        simp only [_links_to_d3_data, find_all_links] at he
        have := hrange e he
        omega)]
    rw [nodeFold_edges]
    simp [_links_to_d3_data, find_all_links, emptyLinks]
  refine ⟨hedgeseq, ?_, ?_⟩
  · intro p k
    rw [get_position_data, get_position_data]
    rw [find?_congr_of_unique _ links.posData _ hmemdata (huniql p k)]
  · intro p
    simp only [find_all_positions, List.mem_append, hedgeseq]
    apply or_congr Iff.rfl
    simp only [List.mem_map]
    constructor
    · rintro ⟨e, he, rfl⟩
      exact ⟨e, (hmemdata e).mp he, rfl⟩
    · rintro ⟨e, he, rfl⟩
      exact ⟨e, (hmemdata e).mpr he, rfl⟩

/-- Witness for C6: a two-position graph with one edge and one metadata
entry round-trips through the D3 node-link structure. -/
theorem d3_data_roundtrip_witness :
    ((∀ entry ∈ (Links.mk [(⟨0, 0, 0, 0⟩, ⟨0, 0, 0, 1⟩)]
        [(⟨0, 0, 0, 0⟩, "error", MetaValue.int 1)]).posData,
        entry.1 ∈ [⟨0, 0, 0, 0⟩, (⟨0, 0, 0, 1⟩ : Position)]) ∧
      ([⟨0, 0, 0, 0⟩, (⟨0, 0, 0, 1⟩ : Position)] : List Position).Nodup ∧
      ((Links.mk [(⟨0, 0, 0, 0⟩, ⟨0, 0, 0, 1⟩)]
        [(⟨0, 0, 0, 0⟩, "error", MetaValue.int 1)]).posData.map
          fun entry => (entry.1, entry.2.1)).Nodup ∧
      (Links.mk [(⟨0, 0, 0, 0⟩, ⟨0, 0, 0, 1⟩)]
        [(⟨0, 0, 0, 0⟩, "error", MetaValue.int 1)]).edges.Nodup ∧
      (∀ e ∈ (Links.mk [(⟨0, 0, 0, 0⟩, ⟨0, 0, 0, 1⟩)]
        [(⟨0, 0, 0, 0⟩, "error", MetaValue.int 1)]).edges,
        -100000 ≤ e.1.t ∧ e.1.t ≤ 100000 ∧ -100000 ≤ e.2.t ∧ e.2.t ≤ 100000)) ∧
    ((_add_d3_data emptyLinks (_links_to_d3_data
        (Links.mk [(⟨0, 0, 0, 0⟩, ⟨0, 0, 0, 1⟩)]
          [(⟨0, 0, 0, 0⟩, "error", MetaValue.int 1)])
        [⟨0, 0, 0, 0⟩, ⟨0, 0, 0, 1⟩])).edges =
      (Links.mk [(⟨0, 0, 0, 0⟩, ⟨0, 0, 0, 1⟩)]
        [(⟨0, 0, 0, 0⟩, "error", MetaValue.int 1)]).edges ∧
     (∀ p k, get_position_data (_add_d3_data emptyLinks (_links_to_d3_data
        (Links.mk [(⟨0, 0, 0, 0⟩, ⟨0, 0, 0, 1⟩)]
          [(⟨0, 0, 0, 0⟩, "error", MetaValue.int 1)])
        [⟨0, 0, 0, 0⟩, ⟨0, 0, 0, 1⟩])) p k =
      get_position_data (Links.mk [(⟨0, 0, 0, 0⟩, ⟨0, 0, 0, 1⟩)]
        [(⟨0, 0, 0, 0⟩, "error", MetaValue.int 1)]) p k) ∧
     (∀ p, p ∈ find_all_positions (_add_d3_data emptyLinks (_links_to_d3_data
        (Links.mk [(⟨0, 0, 0, 0⟩, ⟨0, 0, 0, 1⟩)]
          [(⟨0, 0, 0, 0⟩, "error", MetaValue.int 1)])
        [⟨0, 0, 0, 0⟩, ⟨0, 0, 0, 1⟩])) ↔
      p ∈ find_all_positions (Links.mk [(⟨0, 0, 0, 0⟩, ⟨0, 0, 0, 1⟩)]
        [(⟨0, 0, 0, 0⟩, "error", MetaValue.int 1)]))) :=
  ⟨⟨by decide, by decide, by decide, by decide, by decide⟩,
   d3_data_roundtrip
     (Links.mk [(⟨0, 0, 0, 0⟩, ⟨0, 0, 0, 1⟩)]
       [(⟨0, 0, 0, 0⟩, "error", MetaValue.int 1)])
     [⟨0, 0, 0, 0⟩, ⟨0, 0, 0, 1⟩]
     (by decide) (by decide) (by decide) (by decide) (by decide)⟩

/-- A primitive value in a serialized shape list (`src/core/shape.py`): a
tag string, a number (modelled as a rational), a boolean, or Python's
`None` (used for an absent original perimeter). -/
inductive LVal where
  | str (s : String)
  | num (q : ℚ)
  | bool (b : Bool)
  | none
deriving DecidableEq, Repr

/-- The shape variants of `src/core/shape.py`.  `UnknownShape` carries no
data; `EllipseShape` carries its constructor fields, with the original
perimeter possibly absent; `GaussianShape` carries its Gaussian's
parameters (`core.gaussian` is absent from `src/` and is modelled from the
spec as a parameter list that `Gaussian.to_list` serializes and
`Gaussian(*args)` reconstructs). -/
inductive ParticleShape where
  | unknown
  | ellipse (ellipse_dx ellipse_dy ellipse_width ellipse_height ellipse_angle : ℚ)
      (original_perimeter : Option ℚ) (original_area : ℚ) (eccentric : Bool)
  | gaussian (parameters : List ℚ)
deriving DecidableEq, Repr

/-- `to_list()` of each shape variant (`shape.py`: `UnknownShape.to_list`
returns `[]`, `EllipseShape.to_list` the tagged field list,
`GaussianShape.to_list` the tag followed by the Gaussian parameters). -/
def ParticleShape.to_list : ParticleShape → List LVal
  | .unknown => []
  | .ellipse dx dy w h a per ar ecc =>
    [LVal.str "ellipse", LVal.num dx, LVal.num dy, LVal.num w, LVal.num h,
     LVal.num a,
     (match per with
      | Option.none => LVal.none
      | some q => LVal.num q),
     LVal.num ar, LVal.bool ecc]
  | .gaussian params => LVal.str "gaussian" :: params.map LVal.num

/-- Reads a list of numeric arguments, rejecting any non-number (the
Python `Gaussian(*args)` constructor gets its positional parameters). -/
def decodeNums : List LVal → Option (List ℚ)
  | [] => some []
  | LVal.num q :: rest => (decodeNums rest).map fun qs => q :: qs
  | _ => Option.none

/-- `from_list(list)` from `src/core/shape.py`.  An empty list yields the
unknown shape; a list tagged `"ellipse"` must carry exactly the eight
`EllipseShape` constructor arguments and a list tagged `"gaussian"`
numeric Gaussian parameters (a malformed argument list raises a
`TypeError` in Python, modelled as a decode error); any other first
element raises `ValueError("Cannot deserialize ...")`. -/
def from_list (list : List LVal) : Except String ParticleShape :=
  match list with
  | [] => Except.ok ParticleShape.unknown
  | type :: rest =>
    if type = LVal.str "ellipse" then
      match rest with
      | [LVal.num dx, LVal.num dy, LVal.num w, LVal.num h, LVal.num a, per,
         LVal.num ar, LVal.bool ecc] =>
        match per with
        | LVal.none => Except.ok (.ellipse dx dy w h a Option.none ar ecc)
        | LVal.num q => Except.ok (.ellipse dx dy w h a (some q) ar ecc)
        | _ => Except.error "TypeError"
      | _ => Except.error "TypeError"
    else if type = LVal.str "gaussian" then
      match decodeNums rest with
      | some params => Except.ok (.gaussian params)
      | Option.none => Except.error "TypeError"
    else Except.error "Cannot deserialize"

/-- `math.pi` modelled as a fixed rational constant; the verified
round-trip properties compare identical computations on both sides, so the
exact value is irrelevant. -/
def piApprox : ℚ := 3141592653589793 / 1000000000000000

/-- `raw_area()`: the stored original area for an ellipse, 0 for the
unknown shape; `GaussianShape` inherits the base class's
`NotImplementedError`, modelled as an error result. -/
def ParticleShape.raw_area : ParticleShape → Except String ℚ
  | .unknown => .ok 0
  | .ellipse _ _ _ _ _ _ ar _ => .ok ar
  | .gaussian _ => .error "NotImplementedError"

/-- `fitted_area()`: `pi * width / 2 * height / 2` for an ellipse, 0 for
the unknown shape, inherited `NotImplementedError` for a Gaussian. -/
def ParticleShape.fitted_area : ParticleShape → Except String ℚ
  | .unknown => .ok 0
  | .ellipse _ _ w h _ _ _ _ => .ok (piApprox * w / 2 * h / 2)
  | .gaussian _ => .error "NotImplementedError"

/-- `perimeter()`: the stored original perimeter for an ellipse, or the
Ramanujan-style approximation from the half axes when it is absent (in
rational arithmetic, division by zero yields zero where Python would raise;
both sides of the round-trip run the identical computation); 0 for the
unknown shape; inherited `NotImplementedError` for a Gaussian. -/
def ParticleShape.perimeter : ParticleShape → Except String ℚ
  | .unknown => .ok 0
  | .ellipse _ _ w h _ per _ _ =>
    match per with
    | Option.none =>
      let a := w / 2
      let b := h / 2
      let hh := ((a - b) ^ 2) / ((a + b) ^ 2)
      .ok (piApprox * (a + b) * (1 + (1/4) * hh + (1/64) * hh + (1/256) * hh))
    | some p => .ok p
  | .gaussian _ => .error "NotImplementedError"

/-- `is_unknown()`: true exactly for the unknown shape. -/
def ParticleShape.is_unknown : ParticleShape → Bool
  | .unknown => true
  | _ => false

/-- Decoding the encoding of a numeric parameter list succeeds and is the
identity. -/
theorem decodeNums_map (params : List ℚ) :
    decodeNums (params.map LVal.num) = some params := by
  induction params with
  | nil => rfl
  | cons q params ih => simp [decodeNums, ih]

/-- Serialization followed by deserialization reconstructs the very same
shape value. -/
theorem from_list_to_list (s : ParticleShape) : from_list s.to_list = Except.ok s := by
  cases s with
  | unknown => rfl
  | ellipse dx dy w h a per ar ecc => cases per <;> rfl
  | gaussian params => simp [ParticleShape.to_list, from_list, decodeNums_map]

/-- C7: for every shape variant (Unknown, Ellipse, Gaussian),
`from_list(shape.to_list())` reconstructs an equivalent shape: the
reconstructed shape agrees with the original on its derived raw and fitted
areas, its perimeter, and `is_unknown()`. -/
theorem shape_roundtrip_preserves_observables (shape : ParticleShape) :
    ∃ shape2, from_list shape.to_list = Except.ok shape2 ∧
      shape2.raw_area = shape.raw_area ∧
      shape2.fitted_area = shape.fitted_area ∧
      shape2.perimeter = shape.perimeter ∧
      shape2.is_unknown = shape.is_unknown :=
  ⟨shape, from_list_to_list shape, rfl, rfl, rfl, rfl⟩

/-- C8: `from_list` applied to the empty list yields the unknown shape, and
`from_list` applied to any non-empty list whose first element is an unknown
tag string (neither `"ellipse"` nor `"gaussian"`) is rejected as a decode
error rather than returning a shape. -/
theorem from_list_empty_and_unknown_tag :
    from_list [] = Except.ok ParticleShape.unknown ∧
    (∀ (tag : String) (rest : List LVal), tag ≠ "ellipse" → tag ≠ "gaussian" →
      from_list (LVal.str tag :: rest) = Except.error "Cannot deserialize") := by
  constructor
  · rfl
  · intro tag rest h1 h2
    simp only [from_list]
    rw [if_neg (by simpa using h1), if_neg (by simpa using h2)]

/-- Modelled from the spec:
`linking_markers.find_errored_positions(links)` — every position flagged
with an error marker. -/
def find_errored_positions (links : Links) : List Position :=
  (links.posData.filter fun e => e.2.1 == "error").map fun e => e.1

/-- Modelled from the spec: `links.get_track(position)` — the track of the
forest containing the position, or `none` if the position has no linking
data. -/
def get_track (roots : List LTrack) (p : Position) : Option LTrack :=
  (allDescList roots).find? fun t => decide (p ∈ t.positions)

/-- `_find_tracks_with_errors` from
`src/ai_track_plugins/plugin_lineage_tree.py`: for every errored position,
add its containing track and every direct next track of that track.  The
Python set of tracks is modelled as a list; only membership matters. -/
def _find_tracks_with_errors (links : Links) (roots : List LTrack) : List LTrack :=
  (find_errored_positions links).foldl
    (fun tracks_with_errors position =>
      match get_track roots position with
      | Option.none => tracks_with_errors
      | some track => (tracks_with_errors ++ [track]) ++ track.nexts)
    []

/-- A position is reported as errored exactly when it carries an error
marker. -/
theorem mem_find_errored_positions {links : Links} {p : Position} :
    p ∈ find_errored_positions links ↔ (get_error_marker links p).isSome = true := by
  rw [get_error_marker, get_position_data]
  rw [Option.isSome_map']
  simp only [find_errored_positions, List.mem_map, List.mem_filter, beq_iff_eq,
    List.find?_isSome, Bool.and_eq_true]
  constructor
  · rintro ⟨e, ⟨hm, hk⟩, rfl⟩
    exact ⟨e, hm, rfl, hk⟩
  · rintro ⟨e, hm, h1, h2⟩
    exact ⟨e, ⟨hm, h2⟩, h1⟩

/-- Membership in the error-track accumulation loop: a track occurs exactly
when some listed position resolves through `get_track` to it or to its
parent. -/
theorem mem_errorFold (roots : List LTrack) :
    ∀ (l : List Position) (init : List LTrack) (x : LTrack),
      (x ∈ l.foldl
        (fun tracks_with_errors position =>
          match get_track roots position with
          | Option.none => tracks_with_errors
          | some track => (tracks_with_errors ++ [track]) ++ track.nexts)
        init) ↔
      x ∈ init ∨ ∃ p ∈ l, ∃ track, get_track roots p = some track ∧
        (x = track ∨ x ∈ track.nexts) := by
  intro l
  induction l with
  | nil => simp
  | cons p l ih =>
    intro init x
    rw [List.foldl_cons]
    cases hgt : get_track roots p with
    | none =>
      simp only [hgt]
      rw [ih]
      constructor
      · rintro (h | ⟨p', hp', tr, htr, hx⟩)
        · exact Or.inl h
        · exact Or.inr ⟨p', List.mem_cons_of_mem _ hp', tr, htr, hx⟩
      · rintro (h | ⟨p', hp', tr, htr, hx⟩)
        · exact Or.inl h
        · rcases List.mem_cons.mp hp' with rfl | hp'
          · rw [hgt] at htr
            exact absurd htr (by simp)
          · exact Or.inr ⟨p', hp', tr, htr, hx⟩
    | some track =>
      simp only [hgt]
      rw [ih]
      constructor
      · rintro (h | ⟨p', hp', tr, htr, hx⟩)
        · rcases List.mem_append.mp h with h' | h'
          · rcases List.mem_append.mp h' with h'' | h''
            · exact Or.inl h''
            · exact Or.inr ⟨p, List.mem_cons_self p l, track, hgt,
                Or.inl (by simpa using h'')⟩
          · exact Or.inr ⟨p, List.mem_cons_self p l, track, hgt, Or.inr h'⟩
        · exact Or.inr ⟨p', List.mem_cons_of_mem _ hp', tr, htr, hx⟩
      · rintro (h | ⟨p', hp', tr, htr, hx⟩)
        · exact Or.inl (List.mem_append.mpr (Or.inl (List.mem_append.mpr (Or.inl h))))
        · rcases List.mem_cons.mp hp' with rfl | hp'
          · rw [hgt] at htr
            obtain rfl : track = tr := by
              injection htr
            rcases hx with rfl | hx
            · exact Or.inl (List.mem_append.mpr (Or.inl
                (List.mem_append.mpr (Or.inr (List.mem_singleton_self _)))))
            · exact Or.inl (List.mem_append.mpr (Or.inr hx))
          · exact Or.inr ⟨p', hp', tr, htr, hx⟩

/-- When the tracks of the forest have pairwise disjoint position lists,
`get_track` resolves a position of a track to exactly that track. -/
theorem get_track_eq_some {roots : List LTrack} {p : Position} {t : LTrack}
    (hdisj : (allDescList roots).Pairwise
      fun t1 t2 => ∀ q ∈ t1.positions, q ∉ t2.positions)
    (ht : t ∈ allDescList roots) (hp : p ∈ t.positions) :
    get_track roots p = some t := by
  apply find?_eq_some_of_unique _ _ t ht (by simpa using hp)
  intro a ha b hb hpa hpb
  have hpa' : p ∈ a.positions := by simpa using hpa
  have hpb' : p ∈ b.positions := by simpa using hpb
  by_contra hne
  have hdisj' : (allDescList roots).Pairwise
      fun t1 t2 => ¬(p ∈ t1.positions ∧ p ∈ t2.positions) := by
    refine hdisj.imp ?_
    intro t1 t2 h hc
    exact h p hc.1 hc.2
  have hsym : Symmetric fun t1 t2 : LTrack =>
      ¬(p ∈ t1.positions ∧ p ∈ t2.positions) := by
    intro t1 t2 h hc
    exact h ⟨hc.2, hc.1⟩
  exact hdisj'.forall hsym ha hb hne ⟨hpa', hpb'⟩

/-- C9: the set computed by `_find_tracks_with_errors` contains exactly the
tracks that contain a position flagged with an error marker together with
every direct child track of such a track; no track is included merely for
being a deeper descendant (grandchild or further) of an errored track.
The hypothesis is the track-view invariant that distinct tracks of the
forest carry disjoint position lists. -/
theorem tracks_with_errors_exact (links : Links) (roots : List LTrack)
    (hdisj : (allDescList roots).Pairwise
      fun t1 t2 => ∀ q ∈ t1.positions, q ∉ t2.positions) :
    ∀ t, t ∈ _find_tracks_with_errors links roots ↔
      (t ∈ allDescList roots ∧
        ∃ p ∈ t.positions, (get_error_marker links p).isSome = true) ∨
      (∃ t' ∈ allDescList roots,
        (∃ p ∈ t'.positions, (get_error_marker links p).isSome = true) ∧
        t ∈ t'.nexts) := by
  intro t
  rw [_find_tracks_with_errors, mem_errorFold]
  simp only [List.not_mem_nil, false_or]
  constructor
  · rintro ⟨p, hp, tr, htr, hx⟩
    have hperr : (get_error_marker links p).isSome = true :=
      mem_find_errored_positions.mp hp
    simp only [get_track] at htr
    have htrmem : tr ∈ allDescList roots := List.mem_of_find?_eq_some htr
    have hptr : p ∈ tr.positions := by
      simpa using List.find?_some htr
    rcases hx with rfl | hx
    · exact Or.inl ⟨htrmem, p, hptr, hperr⟩
    · exact Or.inr ⟨tr, htrmem, ⟨p, hptr, hperr⟩, hx⟩
  · rintro (⟨htmem, p, hpt, hperr⟩ | ⟨t', ht'mem, ⟨p, hpt', hperr⟩, hx⟩)
    · exact ⟨p, mem_find_errored_positions.mpr hperr,
        t, get_track_eq_some hdisj htmem hpt, Or.inl rfl⟩
    · exact ⟨p, mem_find_errored_positions.mpr hperr,
        t', get_track_eq_some hdisj ht'mem hpt', Or.inr hx⟩

/-- Witness for C9: a lineage of a root track at t=0 (flagged with an
error) dividing into two daughter tracks at t=1. -/
theorem tracks_with_errors_exact_witness :
    ((allDescList [LTrack.mk ⟨0, 0, 0, 0⟩ []
        [LTrack.mk ⟨0, 0, 0, 1⟩ [] [], LTrack.mk ⟨1, 0, 0, 1⟩ [] []]]).Pairwise
      fun t1 t2 => ∀ q ∈ t1.positions, q ∉ t2.positions) ∧
    (LTrack.mk ⟨0, 0, 0, 1⟩ [] [] ∈
      _find_tracks_with_errors (Links.mk [] [(⟨0, 0, 0, 0⟩, "error", MetaValue.int 1)])
        [LTrack.mk ⟨0, 0, 0, 0⟩ []
          [LTrack.mk ⟨0, 0, 0, 1⟩ [] [], LTrack.mk ⟨1, 0, 0, 1⟩ [] []]] ↔
      (LTrack.mk ⟨0, 0, 0, 1⟩ [] [] ∈ allDescList [LTrack.mk ⟨0, 0, 0, 0⟩ []
          [LTrack.mk ⟨0, 0, 0, 1⟩ [] [], LTrack.mk ⟨1, 0, 0, 1⟩ [] []]] ∧
        ∃ p ∈ (LTrack.mk ⟨0, 0, 0, 1⟩ [] []).positions,
          (get_error_marker (Links.mk [] [(⟨0, 0, 0, 0⟩, "error", MetaValue.int 1)])
            p).isSome = true) ∨
      (∃ t' ∈ allDescList [LTrack.mk ⟨0, 0, 0, 0⟩ []
          [LTrack.mk ⟨0, 0, 0, 1⟩ [] [], LTrack.mk ⟨1, 0, 0, 1⟩ [] []]],
        (∃ p ∈ t'.positions,
          (get_error_marker (Links.mk [] [(⟨0, 0, 0, 0⟩, "error", MetaValue.int 1)])
            p).isSome = true) ∧
        LTrack.mk ⟨0, 0, 0, 1⟩ [] [] ∈ t'.nexts)) :=
  ⟨by
    constructor
    · intro t' ht'
      rcases List.mem_cons.mp ht' with rfl | ht'
      · intro q hq
        simp only [LTrack.positions] at hq ⊢
        rcases List.mem_singleton.mp hq with rfl
        decide
      · rcases List.mem_singleton.mp ht' with rfl
        intro q hq
        simp only [LTrack.positions] at hq ⊢
        rcases List.mem_singleton.mp hq with rfl
        decide
    · constructor
      · intro t' ht'
        rcases List.mem_singleton.mp ht' with rfl
        intro q hq
        simp only [LTrack.positions] at hq ⊢
        rcases List.mem_singleton.mp hq with rfl
        decide
      · constructor
        · intro t' ht'
          simp [allDescList] at ht'
        · constructor,
   tracks_with_errors_exact
     (Links.mk [] [(⟨0, 0, 0, 0⟩, "error", MetaValue.int 1)])
     [LTrack.mk ⟨0, 0, 0, 0⟩ []
       [LTrack.mk ⟨0, 0, 0, 1⟩ [] [], LTrack.mk ⟨1, 0, 0, 1⟩ [] []]]
     (by
       constructor
       · intro t' ht'
         rcases List.mem_cons.mp ht' with rfl | ht'
         · intro q hq
           simp only [LTrack.positions] at hq ⊢
           rcases List.mem_singleton.mp hq with rfl
           decide
         · rcases List.mem_singleton.mp ht' with rfl
           intro q hq
           simp only [LTrack.positions] at hq ⊢
           rcases List.mem_singleton.mp hq with rfl
           decide
       · constructor
         · intro t' ht'
           rcases List.mem_singleton.mp ht' with rfl
           intro q hq
           simp only [LTrack.positions] at hq ⊢
           rcases List.mem_singleton.mp hq with rfl
           decide
         · constructor
           · intro t' ht'
             simp [allDescList] at ht'
           · constructor)
     (LTrack.mk ⟨0, 0, 0, 1⟩ [] [])⟩

end OrganoidTracker
